import Mathlib

/-!
Shallow embedding of the template-rendering and build-descriptor-editing
core of gr-modtool (gr_modtool.py and src/code_generator.py), together
with proofs of the specification's claims about it.

Buffers and strings of the Python code are modelled as `List Char`; the
Python regular-expression operations used by the code are embedded as
direct recursive functions whose behaviour at each position reproduces the
backtracking semantics of the concrete pattern they stand for (leftmost
match, lazy/greedy quantifier resolution), as documented at each
definition.  Entry names and values spliced into the patterns are treated
literally, as at every call site of the tool (they are plain identifiers
and file names, free of regex metacharacters).
-/

namespace GrModtool

/-- Python's whitespace class (`\s`, `str.strip`), restricted to ASCII as
used throughout the tool. -/
def isPySpace (c : Char) : Bool :=
  c = ' ' || c = '\t' || c = '\n' || c = '\r' || c = '\x0b' || c = '\x0c'

/-- One of the two parenthesis characters, the class `[()]` whose
complement `[^()]` the editor's patterns use. -/
def isParen (c : Char) : Bool :=
  c = '(' || c = ')'

/-- Boolean prefix test on character lists: `startsWith pat l` is true iff
`pat` occurs at the very start of `l`. -/
def startsWith : List Char → List Char → Bool
  | [], _ => true
  | _ :: _, [] => false
  | p :: ps, c :: cs => p = c && startsWith ps cs

/-- Boolean substring test: `occursIn pat l` is true iff `pat` occurs as a
contiguous run somewhere in `l` (the empty pattern occurs everywhere). -/
def occursIn (pat : List Char) : List Char → Bool
  | [] => startsWith pat []
  | c :: rest => startsWith pat (c :: rest) || occursIn pat rest

/-- Split a character list at every element satisfying `p`, keeping empty
pieces, as Python's `str.split(sep)` does for a one-character separator. -/
def splitOnPred (p : Char → Bool) : List Char → List (List Char)
  | [] => [[]]
  | c :: rest =>
    if p c then [] :: splitOnPred p rest
    else
      match splitOnPred p rest with
      | [] => [[c]]
      | piece :: pieces => (c :: piece) :: pieces

/-- Python `s.split(sep)` for the one-character separator `sep`. -/
def splitOnChar (sep : Char) (l : List Char) : List (List Char) :=
  splitOnPred (fun c => c = sep) l

/-- Python `str.strip()`: remove whitespace from both ends. -/
def pyStrip (l : List Char) : List Char :=
  ((l.dropWhile isPySpace).reverse.dropWhile isPySpace).reverse

/-- Python `s.split(' ')[-1]`: the last piece after splitting on single
space characters (`split(' ')` always yields at least one piece). -/
def lastSpaceToken (l : List Char) : List Char :=
  (splitOnChar ' ' l).getLastD []

/-- The last whitespace-delimited word of a string (Python `s.split()[-1]`),
used only to state what the specification's words would demand of
`strip_arg_types`. -/
def lastWsToken (l : List Char) : List Char :=
  ((splitOnPred isPySpace l).filter (fun w => ¬ w.isEmpty)).getLastD []

/-- Whether the regex ` *=[^,)]*` of `strip_default_values` matches at the
head of `l`: a run of spaces followed by `=`. -/
def defvalMatch (l : List Char) : Bool :=
  (l.dropWhile (fun c => c = ' ')).head? = some '='

/-- The suffix of `l` that remains after the match of ` *=[^,)]*` at its
head: past the spaces, the `=`, and the greedy run of characters that are
neither `,` nor `)`. -/
def defvalRest (l : List Char) : List Char :=
  ((l.dropWhile (fun c => c = ' ')).tail).dropWhile (fun c => ¬ (c = ',' || c = ')'))

/-- Embeds `strip_default_values` (gr_modtool.py line 66):
`re.sub(' *=[^,)]*', '', string)`, scanning left to right and deleting
every match. -/
def strip_default_values (l : List Char) : List Char :=
  match l with
  | [] => []
  | c :: rest =>
    if defvalMatch (c :: rest) then strip_default_values (defvalRest (c :: rest))
    else c :: strip_default_values rest
termination_by l.length
decreasing_by
  · have h1 : (List.dropWhile (fun c => c = ' ') (c :: rest)).length ≤ (c :: rest).length :=
      (List.dropWhile_sublist _).length_le
    have h2 : (List.dropWhile (fun c => c = ' ') (c :: rest)) ≠ [] := by
      intro hnil
      simp [defvalMatch, hnil] at *
    have h3 : (List.dropWhile (fun c => c = ' ') (c :: rest)).length ≠ 0 := by
      simpa [List.length_eq_zero] using h2
    have h4 := (List.dropWhile_sublist
      (fun c => ¬ (c = ',' || c = ')'))
      (l := (List.dropWhile (fun c => c = ' ') (c :: rest)).tail)).length_le
    simp only [defvalRest]
    simp only [List.length_tail] at h4 ⊢
    omega
  · simp only [List.length_cons]
    omega

/-- Embeds `strip_arg_types` (gr_modtool.py line 70): strip default
values, split on commas, and keep the last space-separated token of each
trimmed piece, rejoined with `", "`. -/
def strip_arg_types (l : List Char) : List Char :=
  List.intercalate ", ".data
    ((splitOnChar ',' (strip_default_values l)).map
      (fun part => lastSpaceToken (pyStrip part)))

/-- The per-parameter description of `strip_arg_types` used by the amended
claim C4: the i-th comma-separated parameter, stripped of its default
value and trimmed, reduced to its last space-separated token. -/
def argNamesSpec (l : List Char) : List (List Char) :=
  (splitOnChar ',' l).map
    (fun part => lastSpaceToken (pyStrip (strip_default_values part)))

/-- Python `str.splitlines()` for `\n`-separated text: split on newlines
and drop the final empty piece produced by a trailing newline; the empty
string yields no lines at all. -/
def pySplitlines (l : List Char) : List (List Char) :=
  if l.isEmpty then []
  else
    let parts := splitOnChar '\n' l
    if parts.getLast? = some [] then parts.dropLast else parts

/-- Python `str.replace(pat, rep)`: replace every occurrence of `pat`,
scanning left to right without overlap; the empty pattern inserts `rep`
at every position, as in Python. -/
def replaceAll (pat rep : List Char) : List Char → List Char
  | [] => if pat.isEmpty then rep else []
  | c :: rest =>
    if h : startsWith pat (c :: rest) ∧ ¬ pat.isEmpty then
      rep ++ replaceAll pat rep ((c :: rest).drop pat.length)
    else if pat.isEmpty then rep ++ c :: replaceAll pat rep rest
    else c :: replaceAll pat rep rest
termination_by l => l.length
decreasing_by
  · have hp : pat ≠ [] := by simpa [List.isEmpty_iff] using h.2
    have hpos := List.length_pos.mpr hp
    simp only [List.length_drop, List.length_cons]
    omega
  · simp only [List.length_cons]; omega
  · simp only [List.length_cons]; omega

/-- First-match substitution scan of `re.sub(pattern, repl, buf, count=1)`
for an unanchored pattern: `tryAt` attempts the pattern at the head of a
suffix and, on success, returns the replacement followed by the untouched
remainder; the scan tries every position from the left and keeps the
buffer unchanged when no position matches. -/
def subFirst (tryAt : List Char → Option (List Char)) : List Char → List Char
  | [] =>
    match tryAt [] with
    | some r => r
    | none => []
  | c :: rest =>
    match tryAt (c :: rest) with
    | some r => r
    | none => c :: subFirst tryAt rest

/-- First-match substitution scan for a pattern anchored with `^` under
`re.MULTILINE`: the pattern is attempted only at the start of the buffer
and right after each newline. -/
def subLines (tryAt : List Char → Option (List Char)) (l : List Char) : List Char :=
  match tryAt l with
  | some r => r
  | none =>
    let line := l.takeWhile (fun c => c ≠ '\n')
    match hd : l.drop line.length with
    | '\n' :: rest => line ++ '\n' :: subLines tryAt rest
    | _ => l
termination_by l.length
decreasing_by
  have hlen := congrArg List.length hd
  simp only [List.length_drop, List.length_cons] at hlen
  omega

/-- The suffixes of `l` that start right after a newline character. -/
def lineTails : List Char → List (List Char)
  | [] => []
  | '\n' :: rest => rest :: lineTails rest
  | _ :: rest => lineTails rest

/-- The suffixes of `l` at which a `^`-anchored `re.MULTILINE` pattern is
attempted: the whole buffer, and the suffix after each newline. -/
def lineStartSuffixes (l : List Char) : List (List Char) :=
  l :: lineTails l

/-- Matching attempt, at the head of `l`, of the `append_value` pattern
`(entry\([^()]*?)\s*?(\s?)\)` (gr_modtool.py line 577, with the default
empty `to_ignore`), replaced by `\1 + separator + value + \2)`:
`entry(` followed by a parenthesis-free stretch and `)`.  Backtracking
resolves the stretch as: group 1 keeps everything up to the trailing
whitespace run, the lazy `\s*?` swallows that run except its last
character, which the greedy `\s?` captures into group 2.  On success the
rebuilt suffix is returned. -/
def tryAppendAt (separator entry value : List Char) (l : List Char) : Option (List Char) :=
  if startsWith (entry ++ ['(']) l then
    let afterParen := l.drop (entry.length + 1)
    let content := afterParen.takeWhile (fun c => ¬ isParen c)
    match afterParen.drop content.length with
    | ')' :: rest =>
      let wsRun := (content.reverse.takeWhile isPySpace).reverse
      let core := content.take (content.length - wsRun.length)
      let keep := if wsRun.isEmpty then [] else [content.getLastD ' ']
      some (entry ++ '(' :: core ++ separator ++ value ++ keep ++ ')' :: rest)
    | _ => none
  else none

/-- Embeds `CMakeFileEditor.append_value` (gr_modtool.py lines 577-582)
acting on the in-memory buffer: substitute the first match of the append
pattern, leaving the buffer unchanged when nothing matches. -/
def append_value (separator entry value cfile : List Char) : List Char :=
  subFirst (tryAppendAt separator entry value) cfile

/-- Split `l` around the first occurrence of `pat`:
`some (before, after)` with `l = before ++ pat ++ after`, or `none` when
`pat` does not occur. -/
def firstOccSplit (pat : List Char) : List Char → Option (List Char × List Char)
  | [] => if startsWith pat [] then some ([], []) else none
  | c :: rest =>
    if startsWith pat (c :: rest) then some ([], (c :: rest).drop pat.length)
    else
      match firstOccSplit pat rest with
      | some (before, after) => some (c :: before, after)
      | none => none

/-- Matching attempt, at a line start, of the `remove_value` pattern
`^\s*(entry\(\s*[^()]*?\s*)value\s*([^()]*\))` (gr_modtool.py lines
584-588, default empty `to_ignore`), replaced by `\1\2`.  The match keeps
groups 1 and 2 only, so it drops the line-leading whitespace matched by
`^\s*`, the first occurrence of `value` inside the parenthesis-free
argument stretch, and the greedy whitesp run following that occurrence;
the whitespace preceding the occurrence sits inside group 1 and stays.
`value` is assumed nonempty and not starting with whitespace, as at every
call site, which makes the backtracking search equivalent to the first
occurrence of `value` in the stretch. -/
def tryRemoveAt (entry value : List Char) (l : List Char) : Option (List Char) :=
  let afterLead := l.dropWhile isPySpace
  if startsWith (entry ++ ['(']) afterLead then
    let afterParen := afterLead.drop (entry.length + 1)
    let content := afterParen.takeWhile (fun c => ¬ isParen c)
    match afterParen.drop content.length, firstOccSplit value content with
    | ')' :: rest, some (before, after) =>
      some (entry ++ '(' :: before ++ after.dropWhile isPySpace ++ ')' :: rest)
    | _, _ => none
  else none

/-- Embeds `CMakeFileEditor.remove_value` (gr_modtool.py lines 584-588):
substitute the first line-anchored match, leaving the buffer unchanged
when no line matches. -/
def remove_value (entry value cfile : List Char) : List Char :=
  subLines (tryRemoveAt entry value) cfile

/-- Matching attempt, at the head of `l`, of the `delete_entry` pattern
`entry\s*\([^()]*value_pattern[^()]*\)[^\n]*\n` (gr_modtool.py lines
590-594), replaced by the empty string: `entry`, optional whitespace,
a parenthesized parenthesis-free stretch containing `value_pattern`, and
the rest of that line including its newline; the match fails when the
line has no terminating newline. -/
def tryDeleteAt (entry valuePattern : List Char) (l : List Char) : Option (List Char) :=
  if startsWith entry l then
    match (l.drop entry.length).dropWhile isPySpace with
    | '(' :: rest =>
      let content := rest.takeWhile (fun c => ¬ isParen c)
      match rest.drop content.length with
      | ')' :: rest2 =>
        if occursIn valuePattern content then
          match rest2.dropWhile (fun c => c ≠ '\n') with
          | '\n' :: rest3 => some rest3
          | _ => none
        else none
      | _ => none
    | _ => none
  else none

/-- Embeds `CMakeFileEditor.delete_entry` (gr_modtool.py lines 590-594):
delete the first match of the entry pattern, leaving the buffer unchanged
when nothing matches. -/
def delete_entry (entry valuePattern cfile : List Char) : List Char :=
  subFirst (tryDeleteAt entry valuePattern) cfile

/-- Embeds `CMakeFileEditor.remove_double_newlines` (gr_modtool.py lines
600-602): `re.compile('\n\n\n+').sub('\n\n', cfile)` — each maximal run
of three or more newlines is consumed greedily and replaced by two. -/
def remove_double_newlines : List Char → List Char
  | '\n' :: '\n' :: '\n' :: rest =>
    '\n' :: '\n' :: remove_double_newlines (rest.dropWhile (fun c => c = '\n'))
  | c :: rest => c :: remove_double_newlines rest
  | [] => []
termination_by l => l.length
decreasing_by
  · have := (List.dropWhile_sublist (l := rest) (fun c => c = '\n')).length_le
    simp only [List.length_cons]
    omega
  · simp only [List.length_cons]; omega

/-- One pass of the loop body of `comment_out_lines` over the line list
computed up front: lines satisfying the match predicate have every
occurrence of their text in the current buffer replaced by the
comment-marker-prefixed text. -/
def colAux (p : List Char → Bool) (commentStr : List Char) :
    List (List Char) → List Char → List Char
  | [], buf => buf
  | line :: rest, buf =>
    colAux p commentStr rest
      (if p line then replaceAll line (commentStr ++ line) buf else buf)

/-- Embeds `CMakeFileEditor.comment_out_lines` (gr_modtool.py lines
636-640).  The Python code iterates over `self.cfile.splitlines()`
(computed once, from the buffer as it was on entry) and, for each line on
which `re.search(pattern, line)` fires, runs the whole-buffer
`self.cfile.replace(line, comment_str + line)`.  The regex search is
embedded as the boolean line predicate `p`. -/
def comment_out_lines (p : List Char → Bool) (commentStr : List Char)
    (cfile : List Char) : List Char :=
  colAux p commentStr (pySplitlines cfile) cfile

/-- Embeds `CMakeFileEditor.write` (gr_modtool.py lines 596-598): the file
content written is the buffer, verbatim. -/
def write (cfile : List Char) : List Char :=
  cfile

/-- A substitution context (and likewise the template registry): a mapping
from names to strings, looked up by key. -/
def Context : Type :=
  List (List Char × List Char)

/-- Dictionary lookup in a context or registry; `none` is Python's
`KeyError` / template-engine `NotFound`. -/
def lookupCtx (ctx : Context) (key : List Char) : Option (List Char) :=
  match ctx with
  | [] => none
  | (k, v) :: rest => if k = key then some v else lookupCtx rest key

/-- First character of a placeholder name, `[A-Za-z_]`. -/
def isIdentStart (c : Char) : Bool :=
  c.isAlpha || c = '_'

/-- Later characters of a placeholder name, `[A-Za-z0-9_]`. -/
def isIdentChar (c : Char) : Bool :=
  c.isAlpha || c.isDigit || c = '_'

/-- Parse a placeholder reference at the position right after a `$`:
either `{name}` or a bare `name`.  Returns the referenced name and the
number of characters the reference occupies, or `none` when the `$` does
not introduce a placeholder (it is then literal text).  This is the
placeholder token syntax (`${identifier}` and `$identifier`) shared by
the template engines behind `get_template`: Cheetah's name lookup in
gr_modtool.py and `string.Template.substitute` in code_generator.py. -/
def parsePlaceholder : List Char → Option (List Char × Nat)
  | '{' :: rest =>
    let name := rest.takeWhile isIdentChar
    match rest.drop name.length with
    | '}' :: _ => if name.isEmpty then none else some (name, name.length + 2)
    | _ => none
  | c :: rest =>
    if isIdentStart c then
      some (c :: rest.takeWhile isIdentChar, (rest.takeWhile isIdentChar).length + 1)
    else none
  | [] => none

/-- Errors that rendering can signal: the `KeyError` raised by
`Templates[tpl_id]` for a key absent from the registry, and the error the
template engine raises for a placeholder name absent from the context
(Cheetah `NotFound` / `string.Template` `KeyError`). -/
inductive RenderError where
  | unknownTemplate : RenderError
  | missingPlaceholder : List Char → RenderError
deriving DecidableEq

/-- Render a template against a context: literal characters are copied,
each placeholder reference is replaced by the context's value for its
name, and a referenced name absent from the context raises an error -
no default or blank is ever substituted. -/
def renderTemplate (ctx : Context) : List Char → Except RenderError (List Char)
  | [] => .ok []
  | '$' :: rest =>
    match parsePlaceholder rest with
    | some (name, k) =>
      match lookupCtx ctx name with
      | none => .error (.missingPlaceholder name)
      | some v => (renderTemplate ctx (rest.drop k)).map (fun s => v ++ s)
    | none => (renderTemplate ctx rest).map (fun s => '$' :: s)
  | c :: rest => (renderTemplate ctx rest).map (fun s => c :: s)
termination_by l => l.length
decreasing_by
  all_goals simp only [List.length_drop, List.length_cons]
  all_goals omega

/-- The placeholder names a template references, in order of appearance. -/
def templateRefs : List Char → List (List Char)
  | [] => []
  | '$' :: rest =>
    match parsePlaceholder rest with
    | some (name, k) => name :: templateRefs (rest.drop k)
    | none => templateRefs rest
  | _ :: rest => templateRefs rest
termination_by l => l.length
decreasing_by
  all_goals simp only [List.length_drop, List.length_cons]
  all_goals omega

/-- Embeds `get_template` (gr_modtool.py lines 555-557): look the key up
in the template registry - an unknown key signals its own error, distinct
from any rendering error - and render the found template against the
context (the searchList plus the values the renderer itself injects). -/
def get_template (registry : Context) (tplId : List Char) (ctx : Context) :
    Except RenderError (List Char) :=
  match lookupCtx registry tplId with
  | none => .error .unknownTemplate
  | some tpl => renderTemplate ctx tpl

/-- Embeds `GRMTemplate.str_to_fancyc_comment` (gr_modtool.py lines
543-550): format a licence text as a C block comment.  The Python body
reads `text.splitlines()[0]` unconditionally, so the empty text, whose
`splitlines()` is `[]`, raises `IndexError`; that error branch is the
`none` case. -/
def str_to_fancyc_comment (text : List Char) : Option (List Char) :=
  match pySplitlines text with
  | [] => none
  | l0 :: rest =>
    some ("/* ".data ++ l0 ++ '\n' ::
      ((rest.map (fun line => " * ".data ++ line ++ ['\n'])).join ++ " */\n".data))

/-- Insertion of `# ` after each newline, the tail of
`str_to_python_comment`. -/
def pythonCommentTail : List Char → List Char
  | [] => []
  | '\n' :: rest => '\n' :: '#' :: ' ' :: pythonCommentTail rest
  | c :: rest => c :: pythonCommentTail rest

/-- Embeds `GRMTemplate.str_to_python_comment` (gr_modtool.py lines
551-553): `re.compile('^', re.MULTILINE).sub('# ', text)` - `# ` is
inserted at the start of the text and after every newline. -/
def str_to_python_comment (text : List Char) : List Char :=
  "# ".data ++ pythonCommentTail text

/-- The template keys whose licence text `CodeGenerator.get_template`
(src/code_generator.py lines 31-38) formats with
`str_to_fancyc_comment`: the C/C++ source-file templates. -/
def fancycTemplateIds : List (List Char) :=
  ["block_impl_h".data, "block_impl_cpp".data, "block_def_h".data,
   "qa_h".data, "qa_cpp".data, "noblock_h".data, "noblock_cpp".data]

/-- The template keys whose licence text `CodeGenerator.get_template`
formats with `str_to_python_comment`. -/
def pythonTemplateIds : List (List Char) :=
  ["qa_python".data, "hier_python".data]

/-- The licence-formatting step of `CodeGenerator.get_template`
(src/code_generator.py lines 36-40): C/C++ templates go through
`str_to_fancyc_comment`, whose failure on an empty licence aborts
rendering; scripting-language templates go through the total
`str_to_python_comment`; other templates keep the licence untouched. -/
def cgFormatLicense (tplId : List Char) (license : List Char) :
    Option (List Char) :=
  if tplId ∈ fancycTemplateIds then str_to_fancyc_comment license
  else if tplId ∈ pythonTemplateIds then some (str_to_python_comment license)
  else some license

/-! Helper lemmas about the string primitives. -/

theorem startsWith_append_self (p t : List Char) : startsWith p (p ++ t) = true := by
  induction p with
  | nil => rfl
  | cons c cs ih => simpa [startsWith] using ih

theorem startsWith_nil_of_ne_nil {p : List Char} (h : p ≠ []) :
    startsWith p [] = false := by
  cases p with
  | nil => exact absurd rfl h
  | cons c cs => rfl

theorem defvalMatch_mem {l : List Char} (h : defvalMatch l = true) : '=' ∈ l := by
  apply (List.dropWhile_sublist (fun c => c = ' ') (l := l)).subset
  apply List.mem_of_mem_head?
  simp only [defvalMatch, decide_eq_true_eq] at h
  simp [h]

theorem defvalMatch_eq_head (rest : List Char) : defvalMatch ('=' :: rest) = true := by
  simp [defvalMatch, List.dropWhile_cons]

theorem eq_notMem_strip_default_values (l : List Char) :
    '=' ∉ strip_default_values l := by
  induction l using strip_default_values.induct with
  | case1 => simp [strip_default_values]
  | case2 c rest h ih =>
    rw [strip_default_values, if_pos h]
    exact ih
  | case3 c rest h ih =>
    rw [strip_default_values, if_neg h]
    intro hmem
    rcases List.mem_cons.mp hmem with hc | hc
    · exact h (hc ▸ defvalMatch_eq_head rest)
    · exact ih hc

theorem strip_default_values_of_no_eq {l : List Char} (h : '=' ∉ l) :
    strip_default_values l = l := by
  induction l using strip_default_values.induct with
  | case1 => simp [strip_default_values]
  | case2 c rest hm ih => exact absurd (defvalMatch_mem hm) h
  | case3 c rest hm ih =>
    rw [strip_default_values, if_neg hm]
    rw [ih (fun hx => h (List.mem_cons_of_mem c hx))]

theorem strip_default_values_sublist (l : List Char) :
    List.Sublist (strip_default_values l) l := by
  induction l using strip_default_values.induct with
  | case1 => simp [strip_default_values]
  | case2 c rest h ih =>
    rw [strip_default_values, if_pos h]
    refine ih.trans ?_
    exact (List.dropWhile_sublist _).trans ((List.tail_sublist _).trans (List.dropWhile_sublist _))
  | case3 c rest h ih =>
    rw [strip_default_values, if_neg h]
    exact ih.cons₂ c

/-! Claim C5. -/

/-- C5: `strip_default_values` is idempotent - for every argument-list
string `s`, `strip_default_values (strip_default_values s)` equals
`strip_default_values s`. -/
theorem C5_strip_default_values_idempotent (s : List Char) :
    strip_default_values (strip_default_values s) = strip_default_values s :=
  strip_default_values_of_no_eq (eq_notMem_strip_default_values s)

/-! Helper lemmas about splitting. -/

theorem splitOnPred_ne_nil (p : Char → Bool) (l : List Char) :
    splitOnPred p l ≠ [] := by
  cases l with
  | nil => simp [splitOnPred]
  | cons c rest =>
    rw [splitOnPred]
    by_cases h : p c
    · simp [h]
    · simp only [h]
      cases hs : splitOnPred p rest <;> simp

theorem splitOnPred_no_sep {p : Char → Bool} {l : List Char}
    (h : ∀ c ∈ l, p c = false) : splitOnPred p l = [l] := by
  induction l with
  | nil => rfl
  | cons c rest ih =>
    rw [splitOnPred]
    have hc : p c = false := h c (List.mem_cons_self c rest)
    simp only [hc, Bool.false_eq_true, if_false]
    rw [ih (fun x hx => h x (List.mem_cons_of_mem c hx))]

theorem splitOnPred_append_sep {p : Char → Bool} {a : List Char} (s : Char)
    (rest : List Char) (ha : ∀ c ∈ a, p c = false) (hs : p s = true) :
    splitOnPred p (a ++ s :: rest) = a :: splitOnPred p rest := by
  induction a with
  | nil => simp [splitOnPred, hs]
  | cons c cs ih =>
    have hc : p c = false := ha c (List.mem_cons_self c cs)
    rw [List.cons_append, splitOnPred]
    simp only [hc, Bool.false_eq_true, if_false]
    rw [ih (fun x hx => ha x (List.mem_cons_of_mem c hx))]

/-! Commutation of `strip_default_values` with splitting on commas: a
match of ` *=[^,)]*` never contains nor crosses a comma. -/

theorem defvalMatch_append_comma (a b : List Char) :
    defvalMatch (a ++ ',' :: b) = defvalMatch a := by
  unfold defvalMatch
  rw [List.dropWhile_append]
  by_cases h : (a.dropWhile (fun c => c = ' ')).isEmpty
  · rw [if_pos h]
    rw [List.dropWhile_cons_of_neg (by decide)]
    rw [List.isEmpty_iff.mp h]
    simp
  · rw [if_neg h]
    have hne : a.dropWhile (fun c => c = ' ') ≠ [] := by
      simpa [List.isEmpty_iff] using h
    rw [List.head?_append]
    rcases hd : (a.dropWhile (fun c => c = ' ')).head? with _ | c
    · exact absurd (List.head?_eq_none_iff.mp hd) hne
    · simp [hd]

theorem defvalRest_append_comma (a b : List Char) (h : defvalMatch a = true) :
    defvalRest (a ++ ',' :: b) = defvalRest a ++ ',' :: b := by
  have hne : a.dropWhile (fun c => c = ' ') ≠ [] := by
    intro hnil
    simp [defvalMatch, hnil] at h
  unfold defvalRest
  rw [List.dropWhile_append, if_neg (by simpa [List.isEmpty_iff] using hne)]
  rw [List.tail_append_of_ne_nil hne]
  rw [List.dropWhile_append]
  by_cases h2 : (((a.dropWhile (fun c => c = ' ')).tail).dropWhile
      (fun c => ¬ (c = ',' || c = ')'))).isEmpty
  · rw [if_pos h2]
    rw [List.dropWhile_cons_of_neg (by decide)]
    rw [List.isEmpty_iff.mp h2]
    rfl
  · rw [if_neg h2]

theorem strip_default_values_cons_pos {c : Char} {rest : List Char}
    (h : defvalMatch (c :: rest) = true) :
    strip_default_values (c :: rest)
      = strip_default_values (defvalRest (c :: rest)) := by
  rw [strip_default_values, if_pos h]

theorem strip_default_values_cons_neg {c : Char} {rest : List Char}
    (h : ¬ defvalMatch (c :: rest) = true) :
    strip_default_values (c :: rest) = c :: strip_default_values rest := by
  rw [strip_default_values, if_neg h]

theorem strip_default_values_append_comma (a b : List Char) :
    strip_default_values (a ++ ',' :: b)
      = strip_default_values a ++ ',' :: strip_default_values b := by
  induction a using strip_default_values.induct with
  | case1 =>
    rw [List.nil_append]
    rw [strip_default_values_cons_neg
      (by simp [defvalMatch, List.dropWhile_cons_of_neg])]
    simp [strip_default_values]
  | case2 c rest h ih =>
    have hm : defvalMatch ((c :: rest) ++ ',' :: b) = true := by
      rw [defvalMatch_append_comma]; exact h
    rw [List.cons_append] at hm
    rw [List.cons_append, strip_default_values_cons_pos hm]
    rw [show defvalRest (c :: (rest ++ ',' :: b))
        = defvalRest (c :: rest) ++ ',' :: b from
      defvalRest_append_comma (c :: rest) b h]
    rw [ih, strip_default_values_cons_pos h]
  | case3 c rest h ih =>
    have hm : ¬ defvalMatch ((c :: rest) ++ ',' :: b) = true := by
      rw [defvalMatch_append_comma]; exact h
    rw [List.cons_append] at hm
    rw [List.cons_append, strip_default_values_cons_neg hm]
    rw [ih, strip_default_values_cons_neg h]
    rfl

theorem comma_notMem_takeWhile (s : List Char) :
    ∀ c ∈ s.takeWhile (fun c => c ≠ ','), decide (c = ',') = false := by
  intro c hc
  have := List.mem_takeWhile_imp hc
  simpa using this

theorem splitOnChar_strip_default_values : ∀ (n : Nat) (s : List Char),
    s.length ≤ n →
    splitOnChar ',' (strip_default_values s)
      = (splitOnChar ',' s).map strip_default_values := by
  intro n
  induction n with
  | zero =>
    intro s hs
    have : s = [] := List.length_eq_zero.mp (Nat.le_zero.mp hs)
    subst this
    simp [splitOnChar, splitOnPred, strip_default_values]
  | succ n ih =>
    intro s hs
    rcases hr : s.dropWhile (fun c => c ≠ ',') with _ | ⟨c, b⟩
    · have hdecomp := List.takeWhile_append_dropWhile (fun c => c ≠ ',') s
      rw [hr, List.append_nil] at hdecomp
      have hnc : ∀ c ∈ s, decide (c = ',') = false := by
        rw [← hdecomp]; exact comma_notMem_takeWhile s
      have hnc' : ∀ c ∈ strip_default_values s, decide (c = ',') = false :=
        fun c hc => hnc c ((strip_default_values_sublist s).subset hc)
      rw [splitOnChar, splitOnPred_no_sep hnc', splitOnChar, splitOnPred_no_sep hnc]
      rfl
    · have hc : c = ',' := by
        have hhead := List.head?_dropWhile_not (fun c => c ≠ ',') s
        rw [hr] at hhead
        simpa using hhead
      subst hc
      have hdecomp := List.takeWhile_append_dropWhile (fun c => c ≠ ',') s
      rw [hr] at hdecomp
      have hna : ∀ x ∈ s.takeWhile (fun c => c ≠ ','), decide (x = ',') = false :=
        comma_notMem_takeWhile s
      have hna' : ∀ x ∈ strip_default_values (s.takeWhile (fun c => c ≠ ',')),
          decide (x = ',') = false :=
        fun x hx => hna x ((strip_default_values_sublist _).subset hx)
      have hblen : b.length ≤ n := by
        have := congrArg List.length hdecomp
        simp only [List.length_append, List.length_cons] at this
        omega
      rw [← hdecomp]
      rw [strip_default_values_append_comma]
      rw [splitOnChar, splitOnPred_append_sep ',' _ hna' (by decide)]
      rw [splitOnChar, splitOnPred_append_sep ',' _ hna (by decide)]
      rw [List.map_cons]
      rw [← splitOnChar, ← splitOnChar, ih b hblen]

/-! Claim C4. -/

/-- C4 counterexample: on the single-parameter argument list `"int\tx"`
(type and name separated by a tab), `strip_arg_types` returns the whole
parameter `"int\tx"`, not its last whitespace-delimited token `"x"` as
the claim states: the code splits on single space characters only. -/
theorem C4_counterexample :
    strip_arg_types "int\tx".data = "int\tx".data
    ∧ lastWsToken "int\tx".data = "x".data
    ∧ strip_arg_types "int\tx".data ≠ lastWsToken "int\tx".data := by
  refine ⟨?_, by decide, ?_⟩
  · simp [strip_arg_types, strip_default_values, defvalMatch, defvalRest,
      splitOnChar, splitOnPred, pyStrip, isPySpace, lastSpaceToken,
      List.intercalate]
  · intro h
    rw [show lastWsToken "int\tx".data = "x".data from by decide] at h
    have : strip_arg_types "int\tx".data = "int\tx".data := by
      simp [strip_arg_types, strip_default_values, defvalMatch, defvalRest,
        splitOnChar, splitOnPred, pyStrip, isPySpace, lastSpaceToken,
        List.intercalate]
    rw [this] at h
    exact absurd h (by decide)

/-- C4 (amended): for every argument-list string with N comma-separated
parameters, `strip_arg_types` returns the N tokens joined by `", "`, the
i-th token being the last single-space-delimited token (Python
`split(' ')[-1]`, not whitespace-delimited) of the i-th parameter after
its default value has been stripped and surrounding whitespace trimmed;
the empty argument list yields the empty string, not an error. -/
theorem C4_strip_arg_types_tokens (s : List Char) :
    strip_arg_types s = List.intercalate ", ".data (argNamesSpec s)
    ∧ (argNamesSpec s).length = (splitOnChar ',' s).length
    ∧ strip_arg_types [] = [] := by
  refine ⟨?_, by simp [argNamesSpec], ?_⟩
  · rw [strip_arg_types, argNamesSpec,
      splitOnChar_strip_default_values s.length s (Nat.le_refl _), List.map_map]
    rfl
  · simp [strip_arg_types, strip_default_values, splitOnChar, splitOnPred,
      pyStrip, lastSpaceToken, List.intercalate]

/-! Helper lemmas about the substitution scanners. -/

theorem subFirst_head_some {tryAt : List Char → Option (List Char)}
    {l r : List Char} (h : tryAt l = some r) : subFirst tryAt l = r := by
  cases l with
  | nil => simp [subFirst, h]
  | cons c rest => simp [subFirst, h]

theorem subFirst_of_no_match (tryAt : List Char → Option (List Char)) :
    ∀ l : List Char, (∀ s ∈ l.tails, tryAt s = none) → subFirst tryAt l = l := by
  intro l
  induction l with
  | nil =>
    intro h
    simp [subFirst, h [] (by simp)]
  | cons c rest ih =>
    intro h
    have h0 : tryAt (c :: rest) = none := h _ (by simp [List.tails_cons])
    rw [subFirst, h0]
    rw [ih (fun s hs => h s (by simp [List.tails_cons, hs]))]

theorem subFirst_append (tryAt : List Char → Option (List Char)) :
    ∀ (a b r : List Char),
      (∀ i < a.length, tryAt ((a ++ b).drop i) = none) →
      tryAt b = some r →
      subFirst tryAt (a ++ b) = a ++ r := by
  intro a
  induction a with
  | nil =>
    intro b r _ hb
    simpa using subFirst_head_some hb
  | cons x a' ih =>
    intro b r h hb
    have h0 : tryAt (x :: (a' ++ b)) = none := by
      simpa using h 0 (by simp)
    rw [List.cons_append, subFirst, h0]
    rw [ih b r (fun i hi => by simpa using h (i + 1) (by simp; omega)) hb]
    rfl

theorem subLines_head_some {tryAt : List Char → Option (List Char)}
    {l r : List Char} (h : tryAt l = some r) : subLines tryAt l = r := by
  rw [subLines, h]

theorem lineStartSuffixes_self_mem (l : List Char) :
    l ∈ lineStartSuffixes l :=
  List.mem_cons_self _ _

theorem lineTails_cons_nl (rest : List Char) :
    lineTails ('\n' :: rest) = rest :: lineTails rest := by
  simp [lineTails]

theorem lineTails_cons_ne {c : Char} (rest : List Char) (hc : ¬ c = '\n') :
    lineTails (c :: rest) = lineTails rest := by
  simp [lineTails, hc]

theorem lineTails_append (a rest : List Char) :
    rest ∈ lineTails (a ++ '\n' :: rest)
    ∧ ∀ s ∈ lineTails rest, s ∈ lineTails (a ++ '\n' :: rest) := by
  induction a with
  | nil =>
    rw [List.nil_append, lineTails_cons_nl]
    exact ⟨List.mem_cons_self _ _, fun s hs => List.mem_cons_of_mem _ hs⟩
  | cons c a' ih =>
    rw [List.cons_append]
    rcases eq_or_ne c '\n' with hc | hc
    · subst hc
      rw [lineTails_cons_nl]
      exact ⟨List.mem_cons_of_mem _ ih.1, fun s hs => List.mem_cons_of_mem _ (ih.2 s hs)⟩
    · rw [lineTails_cons_ne _ hc]
      exact ih

theorem takeWhile_line_decomp {l rest : List Char}
    (hdrop : l.drop (l.takeWhile (fun c => c ≠ '\n')).length = '\n' :: rest) :
    l.takeWhile (fun c => c ≠ '\n') ++ '\n' :: rest = l := by
  have hpre := List.prefix_iff_eq_take.mp (List.takeWhile_prefix (fun c => c ≠ '\n') (l := l))
  calc l.takeWhile (fun c => c ≠ '\n') ++ '\n' :: rest
      = l.take (l.takeWhile (fun c => c ≠ '\n')).length
        ++ l.drop (l.takeWhile (fun c => c ≠ '\n')).length := by rw [← hpre, hdrop]
    _ = l := List.take_append_drop _ l

theorem lineStartSuffixes_tail_mem {l rest : List Char}
    (hdrop : l.drop (l.takeWhile (fun c => c ≠ '\n')).length = '\n' :: rest) :
    ∀ s ∈ lineStartSuffixes rest, s ∈ lineStartSuffixes l := by
  intro s hs
  have hl : l.takeWhile (fun c => c ≠ '\n') ++ '\n' :: rest = l := takeWhile_line_decomp hdrop
  rw [lineStartSuffixes] at hs ⊢
  apply List.mem_cons_of_mem
  rw [← hl]
  rcases List.mem_cons.mp hs with hs | hs
  · subst hs
    exact (lineTails_append _ s).1
  · exact (lineTails_append _ rest).2 s hs

theorem subLines_of_no_match (tryAt : List Char → Option (List Char))
    (l : List Char) :
    (∀ s ∈ lineStartSuffixes l, tryAt s = none) → subLines tryAt l = l := by
  induction l using subLines.induct tryAt with
  | case1 x r hx =>
    intro h
    rw [h x (lineStartSuffixes_self_mem x)] at hx
    cases hx
  | case2 x hx line rest hdrop ih =>
    intro h
    rw [subLines, hx]
    simp only []
    split
    next rest' heq =>
      rw [hdrop] at heq
      cases heq
      rw [ih (fun s hs => h s (lineStartSuffixes_tail_mem hdrop s hs))]
      exact takeWhile_line_decomp hdrop
    all_goals rfl
  | case3 x hx line hno =>
    intro h
    rw [subLines, hx]
    simp only []

/-! Helper lemmas evaluating the three matchers on structured buffers. -/

theorem takeWhile_notParen {args : List Char} (tail2 : List Char)
    (hA : ∀ c ∈ args, isParen c = false) :
    (args ++ ')' :: tail2).takeWhile (fun c => ¬ isParen c) = args := by
  rw [List.takeWhile_append_of_pos (by intro a ha; simp [hA a ha])]
  simp [isParen]

theorem drop_entry_paren (entry X : List Char) :
    ((entry ++ ['(']) ++ X).drop (entry.length + 1) = X := by
  have hlen : (entry ++ ['(']).length = entry.length + 1 := by simp
  rw [← hlen, List.drop_left]

theorem tryAppendAt_no_trailing_ws (separator entry value content rest2 : List Char)
    (hC : ∀ c ∈ content, isParen c = false)
    (hW : content.reverse.takeWhile isPySpace = []) :
    tryAppendAt separator entry value (entry ++ '(' :: content ++ ')' :: rest2)
      = some (entry ++ '(' :: content ++ separator ++ value ++ ')' :: rest2) := by
  have hbuf : entry ++ '(' :: content ++ ')' :: rest2
      = (entry ++ ['(']) ++ (content ++ ')' :: rest2) := by simp
  rw [tryAppendAt, hbuf, if_pos (startsWith_append_self _ _)]
  simp only [drop_entry_paren, takeWhile_notParen rest2 hC]
  rw [List.drop_left]
  simp only [hW, List.reverse_nil, List.length_nil, Nat.sub_zero, List.take_length,
    List.isEmpty_nil, if_true]
  simp

theorem tryRemoveAt_structured (entry value args post : List Char)
    (hE : entry ≠ [])
    (hE1 : isPySpace (entry.headD '(') = false)
    (hA : ∀ c ∈ args, isParen c = false)
    (hV : ∀ c ∈ value, isParen c = false)
    (hOcc : firstOccSplit value (args ++ ' ' :: value) = some (args ++ [' '], [])) :
    tryRemoveAt entry value (entry ++ '(' :: (args ++ ' ' :: value) ++ ')' :: post)
      = some (entry ++ '(' :: args ++ ' ' :: ')' :: post) := by
  have hCall : ∀ c ∈ args ++ ' ' :: value, isParen c = false := by
    intro c hc
    rcases List.mem_append.mp hc with hc | hc
    · exact hA c hc
    · rcases List.mem_cons.mp hc with hc | hc
      · subst hc; rfl
      · exact hV c hc
  have hlead : (entry ++ '(' :: (args ++ ' ' :: value) ++ ')' :: post).dropWhile isPySpace
      = entry ++ '(' :: (args ++ ' ' :: value) ++ ')' :: post := by
    rcases entry with _ | ⟨e, es⟩
    · exact absurd rfl hE
    · rw [show (e :: es) ++ ('(' :: (args ++ ' ' :: value)) ++ ')' :: post
          = e :: (es ++ ('(' :: (args ++ ' ' :: value)) ++ ')' :: post) from by simp]
      rw [List.dropWhile_cons_of_neg (by simpa using hE1)]
  have hbuf : entry ++ '(' :: (args ++ ' ' :: value) ++ ')' :: post
      = (entry ++ ['(']) ++ ((args ++ ' ' :: value) ++ ')' :: post) := by simp
  rw [tryRemoveAt]
  simp only [hlead]
  rw [hbuf, if_pos (startsWith_append_self _ _)]
  simp only [drop_entry_paren, takeWhile_notParen post hCall]
  rw [List.drop_left, hOcc]
  simp

theorem tryDeleteAt_structured (entry vp args tail rest : List Char)
    (hA : ∀ c ∈ args, isParen c = false)
    (hOcc : occursIn vp args = true)
    (hT : ∀ c ∈ tail, ¬ c = '\n') :
    tryDeleteAt entry vp (entry ++ '(' :: args ++ ')' :: tail ++ '\n' :: rest)
      = some rest := by
  have h1 : startsWith entry (entry ++ '(' :: args ++ ')' :: tail ++ '\n' :: rest) = true := by
    have heq : entry ++ '(' :: args ++ ')' :: tail ++ '\n' :: rest
        = entry ++ ('(' :: args ++ ')' :: tail ++ '\n' :: rest) := by simp
    rw [heq]
    exact startsWith_append_self _ _
  have h2 : (entry ++ '(' :: args ++ ')' :: tail ++ '\n' :: rest).drop entry.length
      = '(' :: (args ++ ')' :: (tail ++ '\n' :: rest)) := by
    have heq : entry ++ '(' :: args ++ ')' :: tail ++ '\n' :: rest
        = entry ++ ('(' :: (args ++ ')' :: (tail ++ '\n' :: rest))) := by simp
    rw [heq, List.drop_left]
  have h2b : ('(' :: (args ++ ')' :: (tail ++ '\n' :: rest))).dropWhile isPySpace
      = '(' :: (args ++ ')' :: (tail ++ '\n' :: rest)) :=
    List.dropWhile_cons_of_neg (by simp [isPySpace])
  have h3 : (args ++ ')' :: (tail ++ '\n' :: rest)).takeWhile (fun c => ¬ isParen c)
      = args := takeWhile_notParen _ hA
  have h4 : (args ++ ')' :: (tail ++ '\n' :: rest)).drop args.length
      = ')' :: (tail ++ '\n' :: rest) := List.drop_left args _
  have h5 : (tail ++ '\n' :: rest).dropWhile (fun c => c ≠ '\n') = '\n' :: rest := by
    rw [List.dropWhile_append_of_pos (by intro a ha; simpa using hT a ha)]
    exact List.dropWhile_cons_of_neg (by simp)
  rw [tryDeleteAt, if_pos h1, h2, h2b]
  simp only [h3, h4, h5, hOcc, if_true]

/-! Claim C2. -/

/-- C2: on the one-line buffer `"add_library(mylib a.cc b.cc)\n"`, calling
`append_value("add_library", "c.cc")` with the editor's default separator
(a single space) and then `write()` produces exactly
`"add_library(mylib a.cc b.cc c.cc)\n"`: the new value, preceded by one
space, lands just before the closing parenthesis of the entry. -/
theorem C2_append_write_scenario :
    write (append_value " ".data "add_library".data "c.cc".data
      "add_library(mylib a.cc b.cc)\n".data)
      = "add_library(mylib a.cc b.cc c.cc)\n".data := by
  decide

/-! Claim C3. -/

/-- C3 counterexample: on `"foo(a)\n"`, appending the value `"b"` and then
removing it does not restore the buffer - the separator space inserted by
`append_value` survives `remove_value`, which keeps the whitespace
preceding the value (it sits inside capture group 1) and yields
`"foo(a )\n"`, not `"foo(a)\n"`. -/
theorem C3_counterexample :
    remove_value "foo".data "b".data
        (append_value " ".data "foo".data "b".data "foo(a)\n".data)
      = "foo(a )\n".data
    ∧ "foo(a )\n".data ≠ "foo(a)\n".data := by
  constructor
  · simp [remove_value, subLines, tryRemoveAt, firstOccSplit, startsWith,
      append_value, subFirst, tryAppendAt, isPySpace, isParen]
  · decide

theorem takeWhile_nl_append {a : List Char} (b a' : List Char)
    (hd : a.dropWhile (fun c => c ≠ '\n') = '\n' :: a') :
    (a ++ b).takeWhile (fun c => c ≠ '\n') = a.takeWhile (fun c => c ≠ '\n')
    ∧ (a ++ b).drop ((a.takeWhile (fun c => c ≠ '\n')).length)
        = '\n' :: (a' ++ b) := by
  have hdecomp := List.takeWhile_append_dropWhile (fun c => c ≠ '\n') a
  rw [hd] at hdecomp
  have habe : a ++ b = a.takeWhile (fun c => c ≠ '\n') ++ ('\n' :: (a' ++ b)) := by
    conv_lhs => rw [← hdecomp]
    simp
  constructor
  · rw [habe]
    rw [List.takeWhile_append_of_pos (by
      intro x hx
      have hpx := List.mem_takeWhile_imp hx
      simpa using hpx)]
    rw [List.takeWhile_cons_of_neg (by simp)]
    simp
  · rw [habe, List.drop_left]

theorem subLines_append (tryAt : List Char → Option (List Char)) :
    ∀ (n : Nat) (a b r : List Char), a.length ≤ n →
      (a = [] ∨ a.getLast? = some '\n') →
      (∀ s ∈ lineStartSuffixes (a ++ b), b.length < s.length → tryAt s = none) →
      tryAt b = some r →
      subLines tryAt (a ++ b) = a ++ r := by
  intro n
  induction n with
  | zero =>
    intro a b r hlen hfull h hb
    have ha : a = [] := List.length_eq_zero.mp (Nat.le_zero.mp hlen)
    subst ha
    simpa using subLines_head_some hb
  | succ n ih =>
    intro a b r hlen hfull h hb
    rcases hfull with ha | hlast
    · subst ha
      simpa using subLines_head_some hb
    · have hane : a ≠ [] := by
        intro h0
        rw [h0] at hlast
        cases hlast
      have hmem : '\n' ∈ a := List.mem_of_getLast?_eq_some hlast
      rcases hdw : a.dropWhile (fun c => c ≠ '\n') with _ | ⟨c, a'⟩
      · have := List.dropWhile_eq_nil_iff.mp hdw '\n' hmem
        simp at this
      · have hc : c = '\n' := by
          have hh := List.head?_dropWhile_not (fun c => c ≠ '\n') a
          rw [hdw] at hh
          simpa using hh
        subst hc
        have hta := takeWhile_nl_append b a' hdw
        have hdecomp := List.takeWhile_append_dropWhile (fun c => c ≠ '\n') a
        rw [hdw] at hdecomp
        have h0 : tryAt (a ++ b) = none := by
          apply h (a ++ b) (lineStartSuffixes_self_mem _)
          have := List.length_pos.mpr hane
          simp only [List.length_append]
          omega
        rw [subLines, h0]
        simp only []
        split
        · next rest' heq =>
          rw [hta.1, hta.2] at heq
          injection heq with heq1 heq2
          subst heq2
          rw [hta.1]
          have ha' : a' = [] ∨ a'.getLast? = some '\n' := by
            rcases eq_or_ne a' [] with h' | h'
            · exact Or.inl h'
            · right
              have hre : a = (a.takeWhile (fun c => c ≠ '\n') ++ ['\n']) ++ a' := by
                conv_lhs => rw [← hdecomp]
                simp
              rw [hre] at hlast
              rwa [List.getLast?_append_of_ne_nil _ h'] at hlast
          have hlen' : a'.length ≤ n := by
            have := congrArg List.length hdecomp
            simp only [List.length_append, List.length_cons] at this
            omega
          have hmono : ∀ s ∈ lineStartSuffixes (a' ++ b),
              b.length < s.length → tryAt s = none := by
            intro s hs hslen
            apply h s ?_ hslen
            have habe : a ++ b
                = a.takeWhile (fun c => c ≠ '\n') ++ ('\n' :: (a' ++ b)) := by
              conv_lhs => rw [← hdecomp]
              simp
            rw [lineStartSuffixes] at hs ⊢
            rw [habe]
            apply List.mem_cons_of_mem
            rcases List.mem_cons.mp hs with hs | hs
            · subst hs
              exact (lineTails_append _ _).1
            · exact (lineTails_append _ _).2 s hs
          rw [ih a' b r hlen' ha' hmono hb]
          conv_rhs => rw [← hdecomp]
          simp
        · next hno =>
          have hcontra : (a ++ b).drop
              (((a ++ b).takeWhile (fun c => c ≠ '\n')).length) = '\n' :: (a' ++ b) := by
            rw [hta.1]
            exact hta.2
          exact absurd hcontra (hno (a' ++ b))

/-- C3 (amended): for every buffer consisting of any run of complete
lines followed by the entry `entry(args)` and arbitrary remaining text -
with the entry's match the first append-pattern match and its line start
the first line start at which the remove pattern matches, an argument
stretch with no parentheses and no trailing whitespace, and a simple
value (parenthesis-free, not occurring in the entry's argument text
before the appended copy) - `append_value` followed by `remove_value`
with the same value returns the buffer to its pre-append state except
that the single separator space inserted by the append remains in place
before the closing parenthesis. -/
theorem C3_append_remove_keeps_space (pre entry args value post : List Char)
    (hPreA : ∀ i < pre.length,
      tryAppendAt " ".data entry value
        ((pre ++ (entry ++ '(' :: args ++ ')' :: post)).drop i) = none)
    (hPreFull : pre = [] ∨ pre.getLast? = some '\n')
    (hPreR : ∀ s ∈ lineStartSuffixes
        (pre ++ (entry ++ '(' :: args ++ " ".data ++ value ++ ')' :: post)),
      (entry ++ '(' :: args ++ " ".data ++ value ++ ')' :: post).length < s.length →
      tryRemoveAt entry value s = none)
    (hE : entry ≠ [])
    (hE1 : isPySpace (entry.headD '(') = false)
    (hA : ∀ c ∈ args, isParen c = false)
    (hAws : args.reverse.takeWhile isPySpace = [])
    (hV : ∀ c ∈ value, isParen c = false)
    (hOcc : firstOccSplit value (args ++ ' ' :: value) = some (args ++ [' '], [])) :
    remove_value entry value
        (append_value " ".data entry value
          (pre ++ (entry ++ '(' :: args ++ ')' :: post)))
      = pre ++ (entry ++ '(' :: args ++ ' ' :: ')' :: post) := by
  have happ :=
    tryAppendAt_no_trailing_ws " ".data entry value args post hA hAws
  have h1 : append_value " ".data entry value
        (pre ++ (entry ++ '(' :: args ++ ')' :: post))
      = pre ++ (entry ++ '(' :: args ++ " ".data ++ value ++ ')' :: post) :=
    subFirst_append _ pre _ _ hPreA happ
  rw [h1]
  have hshape : entry ++ '(' :: args ++ " ".data ++ value ++ ')' :: post
      = entry ++ '(' :: (args ++ ' ' :: value) ++ ')' :: post := by simp
  have htry := tryRemoveAt_structured entry value args post hE hE1 hA hV hOcc
  rw [← hshape] at htry
  exact subLines_append (tryRemoveAt entry value) pre.length pre _ _
    (Nat.le_refl _) hPreFull hPreR htry

/-- C3 witness: the amended round trip at a concrete CMake-style buffer
whose entry sits on the second line, after a comment line: appending then
removing `"c.cc"` leaves `"# top\nadd_library(mylib a.cc b.cc )\n"`, the
original but for the surviving separator space. -/
theorem C3_witness :
    remove_value "add_library".data "c.cc".data
        (append_value " ".data "add_library".data "c.cc".data
          "# top\nadd_library(mylib a.cc b.cc)\n".data)
      = "# top\nadd_library(mylib a.cc b.cc )\n".data := by
  have h := C3_append_remove_keeps_space "# top\n".data "add_library".data
    "mylib a.cc b.cc".data "c.cc".data "\n".data
    (by decide) (by decide) (by decide) (by decide) (by decide) (by decide)
    (by decide) (by decide) (by decide)
  have hbuf : "# top\nadd_library(mylib a.cc b.cc)\n".data
      = "# top\n".data ++ ("add_library".data ++ '(' :: "mylib a.cc b.cc".data
          ++ ')' :: "\n".data) := by
    decide
  have hres : "# top\n".data ++ ("add_library".data ++ '(' :: "mylib a.cc b.cc".data
        ++ ' ' :: ')' :: "\n".data)
      = "# top\nadd_library(mylib a.cc b.cc )\n".data := by
    decide
  rw [hbuf]
  rw [h, hres]

/-! Claim C7. -/

/-- C7 counterexample: on `"x add_library(a)\nz\n"` the deletion does not
remove the entire line containing the entry - the text `"x "` preceding
the entry name on that line survives, because the pattern starts at the
entry name, not at the start of the line; the result is `"x z\n"`, and
not `"z\n"` as full-line deletion would give. -/
theorem C7_counterexample :
    delete_entry "add_library".data "".data "x add_library(a)\nz\n".data
      = "x z\n".data
    ∧ "x z\n".data ≠ "z\n".data := by
  decide

/-- C7 (amended): `delete_entry(entry_name, value_pattern)` deletes the
first match from the entry name itself through the end of that line,
including the trailing newline; any text preceding the entry name on the
same line is left in place (joined to the following line), and the rest
of the buffer is unchanged. -/
theorem C7_delete_entry_from_name (pre entry vp args tail rest : List Char)
    (hPre : ∀ i < pre.length,
      tryDeleteAt entry vp
        ((pre ++ (entry ++ '(' :: args ++ ')' :: tail ++ '\n' :: rest)).drop i) = none)
    (hA : ∀ c ∈ args, isParen c = false)
    (hOcc : occursIn vp args = true)
    (hT : ∀ c ∈ tail, ¬ c = '\n') :
    delete_entry entry vp (pre ++ (entry ++ '(' :: args ++ ')' :: tail ++ '\n' :: rest))
      = pre ++ rest :=
  subFirst_append _ pre _ rest hPre (tryDeleteAt_structured entry vp args tail rest hA hOcc hT)

/-- C7 witness: the amended deletion at the counterexample's buffer: the
line prefix `"x "` survives while the entry and the line tail vanish. -/
theorem C7_witness :
    delete_entry "add_library".data "".data "x add_library(a)\nz\n".data
      = "x z\n".data := by
  have h := C7_delete_entry_from_name "x ".data "add_library".data "".data
    "a".data [] "z\n".data (by decide) (by decide) (by decide) (by decide)
  have hbuf : "x add_library(a)\nz\n".data
      = "x ".data ++ ("add_library".data ++ '(' :: "a".data ++ ')' :: []
          ++ '\n' :: "z\n".data) := by decide
  have hres : "x ".data ++ "z\n".data = "x z\n".data := by decide
  rw [hbuf, h, hres]

/-! Claim C9. -/

/-- C9: on a buffer where the mutation's pattern matches nowhere - no
position for `append_value` or `delete_entry`, no line start for the
`^`-anchored `remove_value` - each of the three editor mutations leaves
the buffer byte-for-byte unchanged; the operations are total functions,
so no error is signalled on the no-match path. -/
theorem C9_no_match_silent_no_op (separator entry value vp buf : List Char)
    (hA : ∀ s ∈ buf.tails, tryAppendAt separator entry value s = none)
    (hR : ∀ s ∈ lineStartSuffixes buf, tryRemoveAt entry value s = none)
    (hD : ∀ s ∈ buf.tails, tryDeleteAt entry vp s = none) :
    append_value separator entry value buf = buf
    ∧ remove_value entry value buf = buf
    ∧ delete_entry entry vp buf = buf :=
  ⟨subFirst_of_no_match _ buf hA, subLines_of_no_match _ buf hR,
   subFirst_of_no_match _ buf hD⟩

/-- C9 witness: a comment-only buffer that no pattern matches is left
unchanged by all three mutations. -/
theorem C9_witness :
    append_value " ".data "add_library".data "c.cc".data "# nothing here\n".data
      = "# nothing here\n".data
    ∧ remove_value "add_library".data "c.cc".data "# nothing here\n".data
      = "# nothing here\n".data
    ∧ delete_entry "add_library".data "qa".data "# nothing here\n".data
      = "# nothing here\n".data :=
  C9_no_match_silent_no_op " ".data "add_library".data "c.cc".data "qa".data
    "# nothing here\n".data (by decide) (by decide) (by decide)

/-! Claim C6. -/

theorem startsWith_iff (pat : List Char) : ∀ l : List Char,
    startsWith pat l = true ↔ ∃ t, l = pat ++ t := by
  induction pat with
  | nil =>
    intro l
    simp [startsWith]
  | cons p ps ih =>
    intro l
    cases l with
    | nil =>
      simp [startsWith]
    | cons c cs =>
      rw [startsWith]
      simp only [Bool.and_eq_true, decide_eq_true_eq, ih cs]
      constructor
      · rintro ⟨hpc, t, ht⟩
        exact ⟨t, by rw [ht, hpc, List.cons_append]⟩
      · rintro ⟨t, ht⟩
        rw [List.cons_append] at ht
        injection ht with h1 h2
        exact ⟨h1.symm, t, h2⟩

theorem rdn_triple (rest : List Char) :
    remove_double_newlines ('\n' :: '\n' :: '\n' :: rest)
      = '\n' :: '\n' :: remove_double_newlines (rest.dropWhile (fun c => c = '\n')) := by
  rw [remove_double_newlines]

theorem rdn_cons_of_not_triple {c : Char} {rest : List Char}
    (h : ∀ rest2, c = '\n' → rest = '\n' :: '\n' :: rest2 → False) :
    remove_double_newlines (c :: rest) = c :: remove_double_newlines rest := by
  rw [remove_double_newlines.eq_def]
  split
  · next rest2 heq =>
    injection heq with h1 h2
    exact (h rest2 h1 h2).elim
  · next c' rest' heq =>
    injection heq with h1 h2
    rw [h1, h2]
  · next heq => cases heq

theorem rdn_head? (l : List Char) :
    (remove_double_newlines l).head? = l.head? := by
  induction l using remove_double_newlines.induct with
  | case1 rest ih => rw [rdn_triple]; rfl
  | case2 c rest hne ih => rw [rdn_cons_of_not_triple hne]; rfl
  | case3 => simp [remove_double_newlines]

theorem head?_ne_nl_of_dropWhile (rest : List Char) :
    (rest.dropWhile (fun c => c = '\n')).head? ≠ some '\n' := by
  intro hcontra
  have := List.head?_dropWhile_not (fun c => c = '\n') rest
  rw [hcontra] at this
  simp at this

theorem rdn_no_triple (l : List Char) :
    occursIn "\n\n\n".data (remove_double_newlines l) = false := by
  induction l using remove_double_newlines.induct with
  | case1 rest ih =>
    rw [rdn_triple]
    have hz : (remove_double_newlines (rest.dropWhile (fun c => c = '\n'))).head?
        ≠ some '\n' := by
      rw [rdn_head?]
      exact head?_ne_nl_of_dropWhile rest
    have h1 : startsWith "\n\n\n".data
        ('\n' :: '\n' :: remove_double_newlines (rest.dropWhile (fun c => c = '\n'))) = false := by
      rw [Bool.eq_false_iff]
      intro hsw
      rcases (startsWith_iff _ _).mp hsw with ⟨t, ht⟩
      have : remove_double_newlines (rest.dropWhile (fun c => c = '\n')) = '\n' :: t := by
        have := congrArg List.tail (congrArg List.tail ht)
        simpa using this
      exact hz (by rw [this]; rfl)
    have h2 : startsWith "\n\n\n".data
        ('\n' :: remove_double_newlines (rest.dropWhile (fun c => c = '\n'))) = false := by
      rw [Bool.eq_false_iff]
      intro hsw
      rcases (startsWith_iff _ _).mp hsw with ⟨t, ht⟩
      have : remove_double_newlines (rest.dropWhile (fun c => c = '\n')) = '\n' :: '\n' :: t := by
        have := congrArg List.tail ht
        simpa using this
      exact hz (by rw [this]; rfl)
    rw [occursIn, h1, occursIn, h2, ih]
    rfl
  | case2 c rest hne ih =>
    rw [rdn_cons_of_not_triple hne]
    have h1 : startsWith "\n\n\n".data (c :: remove_double_newlines rest) = false := by
      rw [Bool.eq_false_iff]
      intro hsw
      rcases (startsWith_iff _ _).mp hsw with ⟨t, ht⟩
      have hc : c = '\n' := by
        have := congrArg List.head? ht
        simpa using this
      have hr : remove_double_newlines rest = '\n' :: '\n' :: t := by
        have := congrArg List.tail ht
        simpa using this
      -- `rest` then starts with a newline but, by `hne`, not with two
      have hrh : rest.head? = some '\n' := by
        rw [← rdn_head?, hr]
        rfl
      rcases rest with _ | ⟨d, rest1⟩
      · simp at hrh
      · have hd : d = '\n' := by simpa using hrh
        subst hd
        have hr1h : rest1.head? ≠ some '\n' := by
          intro hh
          rcases rest1 with _ | ⟨e, rest2⟩
          · simp at hh
          · have he : e = '\n' := by simpa using hh
            subst he
            exact hne rest2 hc rfl
        have hnt : ∀ rest2, ('\n' : Char) = '\n' → rest1 = '\n' :: '\n' :: rest2 → False :=
          fun rest2 _ h2 => hne ('\n' :: rest2) hc (by rw [h2])
        rw [rdn_cons_of_not_triple hnt] at hr
        injection hr with _ hr'
        exact hr1h (by rw [← rdn_head?, hr']; rfl)
    rw [occursIn, h1, ih]
    rfl
  | case3 =>
    rw [show remove_double_newlines [] = [] from by simp [remove_double_newlines]]
    rfl

theorem rdn_fixed_of_no_triple (l : List Char)
    (h : occursIn "\n\n\n".data l = false) : remove_double_newlines l = l := by
  induction l using remove_double_newlines.induct with
  | case1 rest ih =>
    rw [occursIn] at h
    have : startsWith "\n\n\n".data ('\n' :: '\n' :: '\n' :: rest) = true :=
      (startsWith_iff _ _).mpr ⟨rest, rfl⟩
    rw [this] at h
    simp at h
  | case2 c rest hne ih =>
    rw [occursIn, Bool.or_eq_false_iff] at h
    rw [rdn_cons_of_not_triple hne, ih h.2]
  | case3 => simp [remove_double_newlines]

/-- C6: `remove_double_newlines` leaves no run of three or more
consecutive newlines (each maximal run of 3+ is collapsed to exactly 2),
a second application leaves the buffer unchanged (idempotence), and a
buffer that already has no such run - only runs of 2 or fewer - is
untouched. -/
theorem C6_remove_double_newlines_collapse (buf : List Char) :
    occursIn "\n\n\n".data (remove_double_newlines buf) = false
    ∧ remove_double_newlines (remove_double_newlines buf) = remove_double_newlines buf
    ∧ (occursIn "\n\n\n".data buf = false → remove_double_newlines buf = buf) :=
  ⟨rdn_no_triple buf,
   rdn_fixed_of_no_triple _ (rdn_no_triple buf),
   fun h => rdn_fixed_of_no_triple buf h⟩

/-- C6 witness: the buffer `"a\n\nb"` contains no triple-newline run and
is untouched; the properties instantiate at a concrete buffer. -/
theorem C6_witness :
    occursIn "\n\n\n".data "a\n\nb".data = false
    ∧ remove_double_newlines "a\n\nb".data = "a\n\nb".data :=
  ⟨by decide, (C6_remove_double_newlines_collapse "a\n\nb".data).2.2 (by decide)⟩

/-! Claim C10. -/

theorem splitOnPred_eq_nil_singleton {p : Char → Bool} {l : List Char}
    (h : splitOnPred p l = [[]]) : l = [] := by
  cases l with
  | nil => rfl
  | cons c rest =>
    rw [splitOnPred] at h
    by_cases hc : p c
    · rw [if_pos hc] at h
      injection h with h1 h2
      exact absurd h2 (splitOnPred_ne_nil p rest)
    · rw [if_neg hc] at h
      rcases hs : splitOnPred p rest with _ | ⟨piece, pieces⟩
      · exact absurd hs (splitOnPred_ne_nil p rest)
      · rw [hs] at h
        injection h with h1 h2
        exact (List.cons_ne_nil _ _ h1).elim

theorem pySplitlines_ne_nil {l : List Char} (h : l ≠ []) :
    pySplitlines l ≠ [] := by
  rw [pySplitlines, if_neg (by simpa [List.isEmpty_iff] using h)]
  by_cases hlast : (splitOnChar '\n' l).getLast? = some []
  · rw [if_pos hlast]
    intro hnil
    rcases hp : splitOnChar '\n' l with _ | ⟨x, xs⟩
    · exact absurd hp (splitOnPred_ne_nil _ _)
    · cases xs with
      | cons y ys =>
        rw [hp] at hnil
        have := congrArg List.length hnil
        simp [List.length_dropLast] at this
      | nil =>
        rw [hp] at hlast
        simp at hlast
        rw [hlast] at hp
        exact h (splitOnPred_eq_nil_singleton hp)
  · rw [if_neg hlast]
    exact splitOnPred_ne_nil _ _

theorem str_to_fancyc_comment_isSome {t : List Char} (h : t ≠ []) :
    (str_to_fancyc_comment t).isSome = true := by
  rw [str_to_fancyc_comment]
  rcases hp : pySplitlines t with _ | ⟨l0, rest⟩
  · exact absurd hp (pySplitlines_ne_nil h)
  · rfl

/-- C10: `str_to_fancyc_comment` is not total - it reads the first line of
its input unconditionally, so the empty licence string hits the
out-of-range branch (`none`) instead of returning a comment, while every
nonempty licence succeeds; consequently, rendering any C/C++ source-file
template - whose licence `CodeGenerator.get_template` routes through this
formatter - succeeds at the formatting step exactly when the licence text
is nonempty. -/
theorem C10_fancyc_comment_needs_nonempty_license :
    str_to_fancyc_comment [] = none
    ∧ (∀ t : List Char, t ≠ [] → (str_to_fancyc_comment t).isSome = true)
    ∧ (∀ tplId ∈ fancycTemplateIds, ∀ license : List Char,
        ((cgFormatLicense tplId license).isSome = true ↔ license ≠ [])) := by
  have hempty : str_to_fancyc_comment [] = none := by
    rw [str_to_fancyc_comment]
    rw [show pySplitlines [] = [] from by rw [pySplitlines]; rfl]
  refine ⟨hempty, fun t ht => str_to_fancyc_comment_isSome ht, ?_⟩
  intro tplId hmem license
  rw [cgFormatLicense, if_pos hmem]
  constructor
  · intro hsome hnil
    subst hnil
    rw [hempty] at hsome
    simp at hsome
  · exact fun hlic => str_to_fancyc_comment_isSome hlic

/-- C10 witness: a concrete nonempty licence is formatted successfully,
and for the C/C++ template `qa_h` the formatting step succeeds iff the
licence is nonempty, instantiated at the empty licence. -/
theorem C10_witness :
    (str_to_fancyc_comment "GPL v3".data).isSome = true
    ∧ ((cgFormatLicense "qa_h".data "".data).isSome = true ↔ ("".data : List Char) ≠ []) :=
  ⟨C10_fancyc_comment_needs_nonempty_license.2.1 "GPL v3".data (by decide),
   C10_fancyc_comment_needs_nonempty_license.2.2 "qa_h".data (by decide) "".data⟩

/-! Claim C8. -/

theorem replaceAll_no_occurs {pat rep : List Char} :
    ∀ b : List Char, occursIn pat b = false → replaceAll pat rep b = b := by
  intro b
  induction b with
  | nil =>
    intro h
    rw [occursIn] at h
    have hpat : pat ≠ [] := by
      intro hp
      rw [hp] at h
      simp [startsWith] at h
    rw [replaceAll, if_neg (by simpa [List.isEmpty_iff] using hpat)]
  | cons c rest ih =>
    intro h
    rw [occursIn, Bool.or_eq_false_iff] at h
    have hpat : pat ≠ [] := by
      intro hp
      rw [hp] at h
      simp [startsWith] at h
    rw [replaceAll]
    rw [dif_neg (fun hcond => by rw [h.1] at hcond; exact Bool.false_ne_true hcond.1)]
    rw [if_neg (by simpa [List.isEmpty_iff] using hpat)]
    rw [ih h.2]

theorem replaceAll_single {pat rep : List Char} (hpat : pat ≠ []) :
    ∀ (a b : List Char),
      (∀ i < a.length, startsWith pat ((a ++ (pat ++ b)).drop i) = false) →
      occursIn pat b = false →
      replaceAll pat rep (a ++ (pat ++ b)) = a ++ (rep ++ b) := by
  intro a
  induction a with
  | nil =>
    intro b _ hb
    rw [List.nil_append, List.nil_append]
    rcases hp : pat with _ | ⟨p, ps⟩
    · exact absurd hp hpat
    · rw [List.cons_append, replaceAll]
      rw [dif_pos ⟨by
          rw [show p :: (ps ++ b) = (p :: ps) ++ b from rfl]
          exact startsWith_append_self _ _,
        by simp⟩]
      have hdrop : (p :: (ps ++ b)).drop (p :: ps).length = b := by
        rw [show p :: (ps ++ b) = (p :: ps) ++ b from rfl, List.drop_left]
      rw [hdrop, replaceAll_no_occurs b (hp ▸ hb)]
  | cons x a' ih =>
    intro b h hb
    have h0 : startsWith pat (x :: (a' ++ (pat ++ b))) = false := by
      simpa using h 0 (by simp)
    rw [List.cons_append, replaceAll]
    rw [dif_neg (fun hcond => by rw [h0] at hcond; exact Bool.false_ne_true hcond.1)]
    rw [if_neg (by simpa [List.isEmpty_iff] using hpat)]
    rw [ih b (fun i hi => by simpa using h (i + 1) (by simp; omega)) hb]
    rfl

theorem colAux_no_match (p : List Char → Bool) (m : List Char) :
    ∀ (L : List (List Char)) (buf : List Char),
      (∀ l ∈ L, p l = false) → colAux p m L buf = buf := by
  intro L
  induction L with
  | nil =>
    intro buf h
    rfl
  | cons l L' ih =>
    intro buf h
    rw [colAux, h l (List.mem_cons_self _ _)]
    simp only [Bool.false_eq_true, if_false]
    exact ih buf (fun x hx => h x (List.mem_cons_of_mem _ hx))

theorem colAux_single_match (p : List Char → Bool) (m l2 : List Char) :
    ∀ (L1 L2 : List (List Char)) (buf buf2 : List Char),
      (∀ l ∈ L1, p l = false) → (∀ l ∈ L2, p l = false) → p l2 = true →
      replaceAll l2 (m ++ l2) buf = buf2 →
      colAux p m (L1 ++ l2 :: L2) buf = buf2 := by
  intro L1
  induction L1 with
  | nil =>
    intro L2 buf buf2 h1 h2 hp hrep
    rw [List.nil_append, colAux, hp]
    simp only [if_true]
    rw [hrep]
    exact colAux_no_match p m L2 buf2 h2
  | cons l L1' ih =>
    intro L2 buf buf2 h1 h2 hp hrep
    rw [List.cons_append, colAux, h1 l (List.mem_cons_self _ _)]
    simp only [Bool.false_eq_true, if_false]
    exact ih L2 buf buf2 (fun x hx => h1 x (List.mem_cons_of_mem _ hx)) h2 hp hrep

/-- C8 counterexample: on the buffer `"a\na\n"` with a pattern matching
`"a"`, the loop's whole-buffer `str.replace` fires once per matching line
and re-matches the already-prefixed text, producing `"##a\n##a\n"` - each
line carries two comment markers, not exactly one as the claim states. -/
theorem C8_counterexample :
    comment_out_lines (fun l => occursIn "a".data l) "#".data "a\na\n".data
      = "##a\n##a\n".data
    ∧ "##a\n##a\n".data ≠ "#a\n#a\n".data := by
  constructor
  · simp [comment_out_lines, colAux, pySplitlines, splitOnChar, splitOnPred,
      replaceAll, occursIn, startsWith]
  · decide

/-- C8 (amended): on a buffer in which exactly one line matches the
pattern, and that matching line's text occurs in the buffer only as that
line itself, `comment_out_lines` prefixes exactly that line with one
comment marker and leaves every other byte of the buffer unchanged.
With several matching lines the markers can stack even when each line's
text initially occurs only as its own line, because each whole-buffer
`str.replace` can create fresh occurrences of another matching line's
text, as the counterexample shows. -/
theorem C8_comment_out_single_matching_line (p : List Char → Bool)
    (marker l2 : List Char) (L1 L2 : List (List Char)) (a b : List Char)
    (hsplit : pySplitlines (a ++ (l2 ++ b)) = L1 ++ l2 :: L2)
    (h1 : ∀ l ∈ L1, p l = false) (h2 : ∀ l ∈ L2, p l = false)
    (hp2 : p l2 = true) (hl2 : l2 ≠ [])
    (hpre : ∀ i < a.length, startsWith l2 ((a ++ (l2 ++ b)).drop i) = false)
    (hocc : occursIn l2 b = false) :
    comment_out_lines p marker (a ++ (l2 ++ b)) = a ++ ((marker ++ l2) ++ b) := by
  rw [comment_out_lines, hsplit]
  exact colAux_single_match p marker l2 L1 L2 _ _ h1 h2 hp2
    (replaceAll_single hl2 a b hpre hocc)

/-- C8 witness: the specification's scenario 4 buffer, with only the
middle line containing `"qa_foo"`: exactly that line gains one `#`. -/
theorem C8_witness :
    comment_out_lines (fun l => occursIn "qa_foo".data l) "#".data
      "keep\nqa_foo stuff\nalso keep\n".data
      = "keep\n#qa_foo stuff\nalso keep\n".data := by
  have h := C8_comment_out_single_matching_line
    (fun l => occursIn "qa_foo".data l) "#".data "qa_foo stuff".data
    ["keep".data] ["also keep".data] "keep\n".data "\nalso keep\n".data
    (by decide) (by decide) (by decide) (by decide) (by decide) (by decide)
    (by decide)
  have hbuf : "keep\nqa_foo stuff\nalso keep\n".data
      = "keep\n".data ++ ("qa_foo stuff".data ++ "\nalso keep\n".data) := by
    decide
  have hres : "keep\n".data ++ (("#".data ++ "qa_foo stuff".data)
        ++ "\nalso keep\n".data)
      = "keep\n#qa_foo stuff\nalso keep\n".data := by
    decide
  rw [hbuf, h, hres]

/-! Claim C1. -/

theorem renderTemplate_dollar_parse_none {ctx : Context} {rest : List Char}
    (hp : parsePlaceholder rest = none) :
    renderTemplate ctx ('$' :: rest)
      = (renderTemplate ctx rest).map (fun s => '$' :: s) := by
  rw [renderTemplate, hp]

theorem renderTemplate_dollar_missing {ctx : Context} {rest name : List Char} {k : Nat}
    (hp : parsePlaceholder rest = some (name, k))
    (hl : lookupCtx ctx name = none) :
    renderTemplate ctx ('$' :: rest) = .error (.missingPlaceholder name) := by
  rw [renderTemplate]
  simp only [hp, hl]

theorem renderTemplate_dollar_found {ctx : Context} {rest name v : List Char} {k : Nat}
    (hp : parsePlaceholder rest = some (name, k))
    (hl : lookupCtx ctx name = some v) :
    renderTemplate ctx ('$' :: rest)
      = (renderTemplate ctx (rest.drop k)).map (fun s => v ++ s) := by
  rw [renderTemplate]
  simp only [hp, hl]

theorem renderTemplate_cons_ne {ctx : Context} {c : Char} {rest : List Char}
    (hc : ¬ c = '$') :
    renderTemplate ctx (c :: rest)
      = (renderTemplate ctx rest).map (fun s => c :: s) := by
  rw [renderTemplate.eq_def]
  split
  · next heq => cases heq
  · next rest' heq =>
    injection heq with h1 h2
    exact (hc h1).elim
  · next c' rest' hne heq =>
    injection heq with h1 h2
    rw [h1, h2]

theorem templateRefs_nil : templateRefs [] = [] := by
  rw [templateRefs]

theorem templateRefs_dollar_parse_none {rest : List Char}
    (hp : parsePlaceholder rest = none) :
    templateRefs ('$' :: rest) = templateRefs rest := by
  rw [templateRefs, hp]

theorem templateRefs_dollar_parse_some {rest name : List Char} {k : Nat}
    (hp : parsePlaceholder rest = some (name, k)) :
    templateRefs ('$' :: rest) = name :: templateRefs (rest.drop k) := by
  rw [templateRefs, hp]

theorem templateRefs_cons_ne {c : Char} {rest : List Char} (hc : ¬ c = '$') :
    templateRefs (c :: rest) = templateRefs rest := by
  rw [templateRefs.eq_def]
  split
  · next heq => cases heq
  · next rest' heq =>
    injection heq with h1 h2
    exact (hc h1).elim
  · next c' rest' hne heq =>
    injection heq with h1 h2
    rw [h2]

theorem except_map_ok {e : Except RenderError (List Char)}
    {f : List Char → List Char} {s : List Char} (h : e.map f = .ok s) :
    ∃ t, e = .ok t := by
  cases e with
  | error err => simp [Except.map] at h
  | ok t => exact ⟨t, rfl⟩

theorem except_map_error {e : Except RenderError (List Char)}
    {f : List Char → List Char} {err : RenderError} (h : e.map f = .error err) :
    e = .error err := by
  cases e with
  | error err' =>
    simp only [Except.map] at h
    injection h with h1
    rw [h1]
  | ok t => simp [Except.map] at h

theorem renderTemplate_ok_refs (ctx : Context) : ∀ (tpl : List Char),
    (∀ s, renderTemplate ctx tpl = .ok s →
      ∀ n ∈ templateRefs tpl, (lookupCtx ctx n).isSome = true) := by
  intro tpl
  induction tpl using renderTemplate.induct ctx with
  | case1 =>
    intro s hok n hn
    rw [templateRefs_nil] at hn
    cases hn
  | case2 rest name k hp hl =>
    intro s hok n hn
    rw [renderTemplate_dollar_missing hp hl] at hok
    cases hok
  | case3 rest name k hp v hl ih =>
    intro s hok n hn
    rw [renderTemplate_dollar_found hp hl] at hok
    rcases except_map_ok hok with ⟨t, ht⟩
    rw [templateRefs_dollar_parse_some hp] at hn
    rcases List.mem_cons.mp hn with hn | hn
    · rw [hn, hl]
      rfl
    · exact ih t ht n hn
  | case4 rest hp ih =>
    intro s hok n hn
    rw [renderTemplate_dollar_parse_none hp] at hok
    rcases except_map_ok hok with ⟨t, ht⟩
    rw [templateRefs_dollar_parse_none hp] at hn
    exact ih t ht n hn
  | case5 c rest hc ih =>
    intro s hok n hn
    rw [renderTemplate_cons_ne (fun h => hc h)] at hok
    rcases except_map_ok hok with ⟨t, ht⟩
    rw [templateRefs_cons_ne (fun h => hc h)] at hn
    exact ih t ht n hn

theorem renderTemplate_error_missing (ctx : Context) : ∀ (tpl : List Char),
    (∀ e, renderTemplate ctx tpl = .error e →
      ∃ m, e = .missingPlaceholder m) := by
  intro tpl
  induction tpl using renderTemplate.induct ctx with
  | case1 =>
    intro e he
    rw [renderTemplate] at he
    cases he
  | case2 rest name k hp hl =>
    intro e he
    rw [renderTemplate_dollar_missing hp hl] at he
    injection he with h1
    exact ⟨name, h1.symm⟩
  | case3 rest name k hp v hl ih =>
    intro e he
    rw [renderTemplate_dollar_found hp hl] at he
    exact ih e (except_map_error he)
  | case4 rest hp ih =>
    intro e he
    rw [renderTemplate_dollar_parse_none hp] at he
    exact ih e (except_map_error he)
  | case5 c rest hc ih =>
    intro e he
    rw [renderTemplate_cons_ne (fun h => hc h)] at he
    exact ih e (except_map_error he)

/-- C1: for every registry, template key and context - the context taken
after the renderer has injected its derived values - looking up a key
absent from the registry signals the distinct unknown-template error, and
rendering a found template that references a placeholder name absent from
the context signals a missing-placeholder error (never output text with a
default or blank substituted, and never the unknown-template error). -/
theorem C1_render_errors (registry : Context) (tplId : List Char) (ctx : Context) :
    (lookupCtx registry tplId = none →
      get_template registry tplId ctx = .error .unknownTemplate)
    ∧ (∀ tpl name, lookupCtx registry tplId = some tpl →
        name ∈ templateRefs tpl → lookupCtx ctx name = none →
        ∃ m, get_template registry tplId ctx = .error (.missingPlaceholder m)) := by
  constructor
  · intro h
    rw [get_template]
    simp only [h]
  · intro tpl name hreg hmem hctx
    rw [get_template]
    simp only [hreg]
    cases hr : renderTemplate ctx tpl with
    | error e =>
      rcases renderTemplate_error_missing ctx tpl e hr with ⟨m, hm⟩
      exact ⟨m, by rw [hm]⟩
    | ok s =>
      have := renderTemplate_ok_refs ctx tpl s hr name hmem
      rw [hctx] at this
      cases this

/-- C1 witness: a registry holding one template `"Hello ${name}!"`; the
key `"missing"` yields the unknown-template error, and rendering the key
`"block"` against a context lacking `name` yields a missing-placeholder
error. -/
theorem C1_witness :
    get_template [("block".data, "Hello ${name}!".data)] "missing".data
        [("other".data, "x".data)] = .error .unknownTemplate
    ∧ ∃ m, get_template [("block".data, "Hello ${name}!".data)] "block".data
        [("other".data, "x".data)] = .error (.missingPlaceholder m) := by
  constructor
  · exact (C1_render_errors [("block".data, "Hello ${name}!".data)] "missing".data
      [("other".data, "x".data)]).1 (by decide)
  · exact (C1_render_errors [("block".data, "Hello ${name}!".data)] "block".data
      [("other".data, "x".data)]).2 "Hello ${name}!".data "name".data (by decide)
      (by simp [templateRefs, parsePlaceholder, isIdentChar, isIdentStart]) (by decide)

end GrModtool
